import Mathlib

/-
Verification of the es-schema pipeline (src/main.go): the Elasticsearch
mapping → Arrow schema translation (`esTypeToArrowType`, `parseProperties`),
the list-widening schema reconciliation against sample documents
(`adjustField`, `adjustSchemaForLists`), and the row-to-columnar
materialization (`createArrowRecord`, `appendValue`).

Modelling conventions:
- Go `interface{}` values are the inductive `GoVal`; a Go `nil` interface is
  `GoVal.nil`.  A `map[string]interface{}` is an ordered association list
  `Entries` (Go map iteration order is made explicit as the list order);
  key lookup takes the first matching entry, which agrees with Go map
  semantics because Go maps have unique keys.
- Go float32/float64 payloads are carried as `Rat`; the Go conversions
  float32↔float64 are value-preserving in this model (their rounding is not
  observed by any claim).  Go's float64→int conversion truncates toward
  zero (`ratTrunc`) and integer narrowing wraps two's-complement
  (`goInt32`, `goInt64`).
- Arrow array builders are the inductive `Builder`, holding the appended
  cells; `array.Builder.NewArray` finalization is the identity on this
  model, so a finished column is the final builder state.
- A Go runtime panic (the `valueBuilder.(*array.Float32Builder)` type
  assertion in the fixed-size-list branch of `appendValue`, and the
  `fieldProperties.(map[string]interface{})` assertion in
  `parseProperties`) is modelled as `Option.none`.
- `time.Parse(time.RFC3339, v)` is an external library call; it is taken
  as an arbitrary parameter `parseTime : String → Option Int` (result in
  Unix nanoseconds, `none` on parse failure).
-/

set_option linter.unusedVariables false
set_option linter.unreachableTactic false
set_option linter.unusedTactic false
set_option linter.unnecessarySeqFocus false
set_option maxHeartbeats 1000000

namespace EsSchema

mutual
/-- Arrow data types reachable in the pipeline, mirroring the
`arrow.DataType` values the Go source constructs:
`arrow.BinaryTypes.String`, `arrow.PrimitiveTypes.Int32/Int64/Float32/Float64`,
`arrow.FixedWidthTypes.Boolean`, `arrow.FixedWidthTypes.Timestamp_ns`,
`arrow.FixedSizeListOf`, `arrow.ListOf`, `arrow.StructOf`.
A struct's field list carries (name, type, nullable) per `arrow.Field`. -/
inductive ArrowType : Type where
  | stringT : ArrowType
  | int32T : ArrowType
  | int64T : ArrowType
  | float32T : ArrowType
  | float64T : ArrowType
  | booleanT : ArrowType
  | timestampNsT : ArrowType
  | fixedSizeListT : Int → ArrowType → ArrowType
  | listT : ArrowType → ArrowType
  | structT : FieldList → ArrowType
  deriving DecidableEq, Repr

/-- An ordered list of `arrow.Field`s: name, type, nullable. -/
inductive FieldList : Type where
  | nil : FieldList
  | cons : String → ArrowType → Bool → FieldList → FieldList
  deriving DecidableEq, Repr
end

/-- An `arrow.Field`: name, type, nullable flag. -/
abbrev Field := String × ArrowType × Bool

mutual
/-- Dynamically-typed Go values (`interface{}`) as they occur in the source:
scalars, `time.Time` (as Unix nanoseconds), `map[string]interface{}`,
`[]interface{}`, and the typed slices the source's type switches mention. -/
inductive GoVal : Type where
  | nil : GoVal
  | str : String → GoVal
  | boolean : Bool → GoVal
  | int : Int → GoVal
  | int32 : Int → GoVal
  | int64 : Int → GoVal
  | float32 : Rat → GoVal
  | float64 : Rat → GoVal
  | time : Int → GoVal
  | map : Entries → GoVal
  | arr : Items → GoVal
  | arrString : List String → GoVal
  | arrFloat32 : List Rat → GoVal
  | arrFloat64 : List Rat → GoVal
  | arrInt : List Int → GoVal
  | arrInt32 : List Int → GoVal
  | arrInt64 : List Int → GoVal
  deriving DecidableEq, Repr

/-- A `map[string]interface{}` in iteration order. -/
inductive Entries : Type where
  | nil : Entries
  | cons : String → GoVal → Entries → Entries
  deriving DecidableEq, Repr

/-- An `[]interface{}`. -/
inductive Items : Type where
  | nil : Items
  | cons : GoVal → Items → Items
  deriving DecidableEq, Repr
end

/-- Go map index without the ok flag: `m[k]`; an absent key yields the zero
value `nil`. -/
def lookupE : Entries → String → GoVal
  | .nil, _ => .nil
  | .cons k v rest, key => if k = key then v else lookupE rest key

/-- Go map index with the ok flag: `v, ok := m[k]`; `none` iff the key is
absent.  A key stored with an explicit `nil` value yields `some .nil`. -/
def lookupOkE : Entries → String → Option GoVal
  | .nil, _ => none
  | .cons k v rest, key => if k = key then some v else lookupOkE rest key

mutual
/-- Size measure on Go values used for termination of the recursions that
walk into maps and slices. -/
def gvSize : GoVal → Nat
  | .map m => 1 + entriesSize m
  | .arr xs => 1 + itemsSize xs
  | .arrString xs => 1 + xs.length
  | .arrFloat32 xs => 1 + xs.length
  | .arrFloat64 xs => 1 + xs.length
  | .arrInt xs => 1 + xs.length
  | .arrInt32 xs => 1 + xs.length
  | .arrInt64 xs => 1 + xs.length
  | _ => 0

def entriesSize : Entries → Nat
  | .nil => 0
  | .cons _ v rest => 1 + gvSize v + entriesSize rest

def itemsSize : Items → Nat
  | .nil => 0
  | .cons v rest => 1 + gvSize v + itemsSize rest
end

theorem gvSize_lookupE : ∀ (m : Entries) (k : String),
    gvSize (lookupE m k) ≤ entriesSize m
  | .nil, _ => by simp [lookupE, gvSize]
  | .cons key v rest, k => by
    simp only [lookupE, entriesSize]
    split
    · omega
    · have := gvSize_lookupE rest k
      omega

/-- Go two's-complement narrowing `int32(n)`. -/
def goInt32 (n : Int) : Int := (n + 2 ^ 31) % 2 ^ 32 - 2 ^ 31

/-- Go two's-complement narrowing `int64(n)`. -/
def goInt64 (n : Int) : Int := (n + 2 ^ 63) % 2 ^ 64 - 2 ^ 63

/-- Go float→int conversion: truncation toward zero. -/
def ratTrunc (q : Rat) : Int := if 0 ≤ q then ⌊q⌋ else ⌈q⌉

/-- The `fieldType` local of `parseProperties` (src/main.go:157-161): the
`type` entry of the field's property object when it is a string, with
`object` assumed when the entry is absent or not a string. -/
def fieldTypeOf (fieldProps : Entries) : String :=
  match lookupE fieldProps "type" with
  | .str s => s
  | _ => "object"

mutual
/-- Embedding of `esTypeToArrowType` (src/main.go:169-202).  The recursive
`parseProperties` call can panic on a malformed tree, hence `Option`. -/
def esTypeToArrowType (esType : String) (fieldProps : Entries) : Option ArrowType :=
  match esType with
  | "text" | "keyword" => some .stringT
  | "integer" => some .int32T
  | "long" => some .int64T
  | "float" => some .float32T
  | "double" => some .float64T
  | "boolean" => some .booleanT
  | "date" => some .timestampNsT
  | "dense_vector" =>
    -- dims is a JSON number, i.e. a Go float64; int32(dims) truncates
    match lookupE fieldProps "dims" with
    | .float64 dims => some (.fixedSizeListT (goInt32 (ratTrunc dims)) .float32T)
    | _ => some (.fixedSizeListT 0 .float32T)
  | "nested" | "object" =>
    match hp : lookupE fieldProps "properties" with
    | .map properties => (parseProperties properties).map ArrowType.structT
    | _ => some (.structT .nil)
  | _ => some .stringT
  termination_by (entriesSize fieldProps, 0)
  decreasing_by
    all_goals
      have h := gvSize_lookupE fieldProps "properties"
      rw [hp] at h
      simp [gvSize] at h
      exact Prod.Lex.left _ _ (by omega)

/-- Embedding of `parseProperties` (src/main.go:153-166).  The
`fieldProperties.(map[string]interface{})` type assertion panics when a
property value is not an object; that panic is `none`.  Fields are built
with the `arrow.Field` zero nullable flag, i.e. `false`. -/
def parseProperties (properties : Entries) : Option FieldList :=
  match properties with
  | .nil => some .nil
  | .cons fieldName fieldProperties rest =>
    match fieldProperties with
    | .map fieldProps =>
      match esTypeToArrowType (fieldTypeOf fieldProps) fieldProps,
          parseProperties rest with
      | some t, some fs => some (.cons fieldName t false fs)
      | _, _ => none
    | _ => none
  termination_by (entriesSize properties, 1)
  decreasing_by
    all_goals apply Prod.Lex.left
    all_goals simp [entriesSize, gvSize]
    all_goals omega
end

/-- The slice shapes of `adjustField`'s widening case (src/main.go:258):
`[]interface{}, []string, []float32, []float64, []int, []int32, []int64`. -/
def isGoSlice : GoVal → Bool
  | .arr _ | .arrString _ | .arrFloat32 _ | .arrFloat64 _
  | .arrInt _ | .arrInt32 _ | .arrInt64 _ => true
  | _ => false

mutual
/-- Embedding of `adjustField` (src/main.go:252-285).  On a slice-shaped
value the field is rewritten to `List(elementType)`, nullable, where
`elementType` is chosen by the inner type switch; on a map value with a
struct-typed field the children are adjusted recursively against the map;
otherwise the field is returned unchanged. -/
def adjustField (field : Field) (value : GoVal) : Field :=
  match value with
  | .nil => field
  | .arr _ | .arrString _ | .arrFloat32 _ | .arrFloat64 _
  | .arrInt _ | .arrInt32 _ | .arrInt64 _ =>
    let elementType : ArrowType :=
      match field.2.1 with
      | .stringT => .stringT
      | .float32T => .float32T
      | .float64T => .float64T
      | .int32T => .int32T
      | .int64T => .int64T
      | t => t
    (field.1, .listT elementType, true)
  | .map v =>
    match ht : field.2.1 with
    | .structT fs => (field.1, .structT (adjustFields fs v), true)
    | _ => field
  | _ => field
  termination_by (sizeOf field.2.1, 0)
  decreasing_by
    all_goals apply Prod.Lex.left
    all_goals rw [ht]
    all_goals simp

/-- The per-child loop of `adjustField`'s struct branch (src/main.go:277-280):
each struct field is adjusted against the map entry of the same name
(absent means Go `nil`). -/
def adjustFields (fields : FieldList) (v : Entries) : FieldList :=
  match fields with
  | .nil => .nil
  | .cons name t nullable rest =>
    let f := adjustField (name, t, nullable) (lookupE v name)
    .cons f.1 f.2.1 f.2.2 (adjustFields rest v)
  termination_by (sizeOf fields, 1)
  decreasing_by
    all_goals apply Prod.Lex.left
    all_goals simp
    all_goals omega
end

/-- First document of the batch whose map contains the key (Go comma-ok
check in the scan of `adjustSchemaForLists`, src/main.go:291-292); the
found value may be an explicit Go `nil`. -/
def firstMatch : List Entries → String → Option GoVal
  | [], _ => none
  | doc :: rest, name =>
    match lookupOkE doc name with
    | some v => some v
    | none => firstMatch rest name

/-- Per-field document scan of `adjustSchemaForLists` (src/main.go:289-306):
documents are walked in order and the first one containing the field's key
(even with an explicit nil value) decides the field's shape; the Go loop
then breaks. -/
def adjustTopField (field : Field) (data : List Entries) : Field :=
  match data with
  | [] => field
  | doc :: rest =>
    match lookupOkE doc field.1 with
    | none => adjustTopField field rest
    | some value =>
      match value, field.2.1 with
      | .map nestedStruct, .structT fs =>
        (field.1, .structT (adjustFields fs nestedStruct), true)
      | _, _ => adjustField field value

/-- Embedding of `adjustSchemaForLists` (src/main.go:287-310): every
top-level field receives its own first-match scan over the batch. -/
def adjustSchemaForLists (schema : FieldList) (data : List Entries) : FieldList :=
  match schema with
  | .nil => .nil
  | .cons name t nullable rest =>
    let f := adjustTopField (name, t, nullable) data
    .cons f.1 f.2.1 f.2.2 (adjustSchemaForLists rest data)

/-- The decision `adjustTopField` applies to the one value found by the
first-match scan; used to characterize the scan in the lemmas below. -/
def decideTopField (field : Field) (value : GoVal) : Field :=
  match value, field.2.1 with
  | .map nestedStruct, .structT fs =>
    (field.1, .structT (adjustFields fs nestedStruct), true)
  | _, _ => adjustField field value

mutual
/-- Every fixed-size-list element type reachable in a pipeline schema is
Float32; under this invariant `appendValue`'s
`valueBuilder.(*array.Float32Builder)` type assertion cannot fail. -/
def wfType : ArrowType → Bool
  | .fixedSizeListT _ e => match e with | .float32T => true | _ => false
  | .listT e => wfType e
  | .structT fs => wfFields fs
  | _ => true

def wfFields : FieldList → Bool
  | .nil => true
  | .cons _ t _ rest => wfType t && wfFields rest
end

mutual
/-- Well-formed mapping tree: every property value is an object and,
recursively, so is every entry of a nested `properties` map; under this
the `fieldProperties.(map[string]interface{})` assertion of
`parseProperties` cannot fail. -/
def wfProps : Entries → Bool
  | .nil => true
  | .cons _ v rest =>
    (match v with
     | .map fieldProps => wfFieldProps fieldProps
     | _ => false) && wfProps rest
  termination_by m => (entriesSize m, 1)
  decreasing_by
    all_goals apply Prod.Lex.left
    all_goals simp [entriesSize, gvSize]
    all_goals omega

/-- Well-formedness of a single field's property object: its `properties`
entry, when it is a map, is itself a well-formed tree. -/
def wfFieldProps (fieldProps : Entries) : Bool :=
  match hp : lookupE fieldProps "properties" with
  | .map p => wfProps p
  | _ => true
  termination_by (entriesSize fieldProps, 0)
  decreasing_by
    all_goals
      have h := gvSize_lookupE fieldProps "properties"
      rw [hp] at h
      simp [gvSize] at h
      exact Prod.Lex.left _ _ (by omega)
end

/-- The entries of a Go map in iteration order, as a plain list. -/
def entriesToList : Entries → List (String × GoVal)
  | .nil => []
  | .cons k v rest => (k, v) :: entriesToList rest

/-- The keys of a Go map in iteration order. -/
def entriesKeys : Entries → List String
  | .nil => []
  | .cons k _ rest => k :: entriesKeys rest

/-- A schema as a plain list of fields. -/
def fieldsToList : FieldList → List Field
  | .nil => []
  | .cons n t b rest => (n, t, b) :: fieldsToList rest

/-- Extensional equality of two Go maps: every key of either maps to the
same value in both.  Two maps that are extensionally equal denote the same
`map[string]interface{}`; only their iteration order can differ. -/
def entriesMapEquiv (m1 m2 : Entries) : Bool :=
  ((entriesKeys m1).all fun k => decide (lookupOkE m1 k = lookupOkE m2 k)) &&
  ((entriesKeys m2).all fun k => decide (lookupOkE m2 k = lookupOkE m1 k))

/-- The loop body of `parseProperties` (src/main.go:155-164) on a single
(key, value) entry of the properties map. -/
def parseEntry : String × GoVal → Option Field
  | (fieldName, .map fieldProps) =>
    (esTypeToArrowType (fieldTypeOf fieldProps) fieldProps).map
      (fun t => (fieldName, t, false))
  | _ => none

/-- Parsing of a list of property entries, entry by entry, in list order:
the list-of-entries counterpart of `parseProperties`. -/
def listParse : List (String × GoVal) → Option (List Field)
  | [] => some []
  | e :: rest =>
    match parseEntry e, listParse rest with
    | some f, some fs => some (f :: fs)
    | _, _ => none

mutual
/-- Arrow array builders (`array.Builder`) for the types the pipeline can
produce, holding the cells appended so far.  `array.Builder.NewArray` is the
identity on this model, so a finished column is the final builder state.
A list builder records per slot a validity flag and the offset (the element
builder's length when the slot was opened), as Arrow's offsets array does;
struct and fixed-size-list builders record their validity bitmap and own
their child builders. -/
inductive Builder : Type where
  | int32B : List (Option Int) → Builder
  | int64B : List (Option Int) → Builder
  | float32B : List (Option Rat) → Builder
  | float64B : List (Option Rat) → Builder
  | stringB : List (Option String) → Builder
  | booleanB : List (Option Bool) → Builder
  | timestampB : List (Option Int) → Builder
  | structB : List Bool → BuilderFields → Builder
  | listB : List (Bool × Nat) → Builder → Builder
  | fixedListB : Int → List Bool → Builder → Builder
  deriving DecidableEq, Repr

/-- The named child builders of a struct builder, in field order. -/
inductive BuilderFields : Type where
  | nil : BuilderFields
  | cons : String → Builder → BuilderFields → BuilderFields
  deriving DecidableEq, Repr
end

mutual
/-- Embedding of `array.NewBuilder(memory.DefaultAllocator, field.Type)`
(src/main.go:315): a fresh, empty builder of the right kind, with fresh
child builders for nested types. -/
def newBuilder : ArrowType → Builder
  | .stringT => .stringB []
  | .int32T => .int32B []
  | .int64T => .int64B []
  | .float32T => .float32B []
  | .float64T => .float64B []
  | .booleanT => .booleanB []
  | .timestampNsT => .timestampB []
  | .fixedSizeListT n e => .fixedListB n [] (newBuilder e)
  | .listT e => .listB [] (newBuilder e)
  | .structT fs => .structB [] (newBuilderFields fs)

def newBuilderFields : FieldList → BuilderFields
  | .nil => .nil
  | .cons name t _ rest => .cons name (newBuilder t) (newBuilderFields rest)
end

/-- The number of rows a builder holds: its own top-level cell count (for
nested builders, the length of their own validity/offset array). -/
def builderLen : Builder → Nat
  | .int32B cells => cells.length
  | .int64B cells => cells.length
  | .float32B cells => cells.length
  | .float64B cells => cells.length
  | .stringB cells => cells.length
  | .booleanB cells => cells.length
  | .timestampB cells => cells.length
  | .structB valids _ => valids.length
  | .listB slots _ => slots.length
  | .fixedListB _ valids _ => valids.length

/-- Arrow v10 `AppendNull` semantics per builder kind: one null cell is
appended to the builder itself; the children of struct, list and
fixed-size-list builders are left untouched (the recursive child-null
padding only appeared in later Arrow versions). -/
def appendNull : Builder → Builder
  | .int32B cells => .int32B (cells ++ [none])
  | .int64B cells => .int64B (cells ++ [none])
  | .float32B cells => .float32B (cells ++ [none])
  | .float64B cells => .float64B (cells ++ [none])
  | .stringB cells => .stringB (cells ++ [none])
  | .booleanB cells => .booleanB (cells ++ [none])
  | .timestampB cells => .timestampB (cells ++ [none])
  | .structB valids fs => .structB (valids ++ [false]) fs
  | .listB slots e => .listB (slots ++ [(false, builderLen e)]) e
  | .fixedListB n valids e => .fixedListB n (valids ++ [false]) e

/-- Length of an `[]interface{}`. -/
def itemsCount : Items → Nat
  | .nil => 0
  | .cons _ rest => 1 + itemsCount rest

mutual
/-- Every fixed-size-list element builder reachable from this builder is a
Float32 builder: the invariant under which the
`valueBuilder.(*array.Float32Builder)` assertion of `appendValue` cannot
panic.  Every builder created from a pipeline schema satisfies it. -/
def wfBuilder : Builder → Bool
  | .listB _ e => wfBuilder e
  | .fixedListB _ _ e => (match e with | .float32B _ => true | _ => false)
  | .structB _ fs => wfBuilderFields fs
  | _ => true

def wfBuilderFields : BuilderFields → Bool
  | .nil => true
  | .cons _ b rest => wfBuilder b && wfBuilderFields rest
end

mutual
/-- Embedding of `appendValue` (src/main.go:334-469).  A Go `nil` value
(absent key, or explicit null) appends a null; otherwise the builder's kind
dispatches on the value's dynamic type exactly as the Go type switches do.
A result of `none` is the Go panic of the
`valueBuilder.(*array.Float32Builder)` type assertion in the
fixed-size-list branch (unreachable from pipeline schemas, whose fixed
lists always carry Float32 elements).  The Go parameter `schema` is passed
through recursively but never read, and is omitted.  `pt` is the external
`time.Parse(time.RFC3339, ·)` collaborator, returning Unix nanoseconds.
The Go conversions: `int32(v)`/`int64(v)` on a Go `int` wrap
(`goInt32`/`goInt64`); on a `float64` they truncate toward zero first
(`ratTrunc`); `float32(v)`/`float64(v)` between floats are value-preserving
in the `Rat` model. -/
def appendValue (pt : String → Option Int) : Builder → GoVal → Option Builder
  | b, .nil => some (appendNull b)
  | .int32B cells, v =>
    match v with
    | .int32 n => some (.int32B (cells ++ [some n]))
    | .int n => some (.int32B (cells ++ [some (goInt32 n)]))
    | .float64 q => some (.int32B (cells ++ [some (goInt32 (ratTrunc q))]))
    | _ => some (.int32B (cells ++ [none]))
  | .int64B cells, v =>
    match v with
    | .int64 n => some (.int64B (cells ++ [some n]))
    | .int n => some (.int64B (cells ++ [some (goInt64 n)]))
    | .float64 q => some (.int64B (cells ++ [some (goInt64 (ratTrunc q))]))
    | _ => some (.int64B (cells ++ [none]))
  | .float32B cells, v =>
    match v with
    | .float32 q => some (.float32B (cells ++ [some q]))
    | .float64 q => some (.float32B (cells ++ [some q]))
    | _ => some (.float32B (cells ++ [none]))
  | .float64B cells, v =>
    match v with
    | .float64 q => some (.float64B (cells ++ [some q]))
    | .float32 q => some (.float64B (cells ++ [some q]))
    | _ => some (.float64B (cells ++ [none]))
  | .stringB cells, v =>
    match v with
    | .str s => some (.stringB (cells ++ [some s]))
    | _ => some (.stringB (cells ++ [none]))
  | .booleanB cells, v =>
    match v with
    | .boolean b => some (.booleanB (cells ++ [some b]))
    | _ => some (.booleanB (cells ++ [none]))
  | .timestampB cells, v =>
    match v with
    | .time ns => some (.timestampB (cells ++ [some ns]))
    | .str s =>
      match pt s with
      | some t => some (.timestampB (cells ++ [some t]))
      | none => some (.timestampB (cells ++ [none]))
    | _ => some (.timestampB (cells ++ [none]))
  | .structB valids fs, v =>
    match v with
    | .map m =>
      (appendStructFields pt fs m).map (fun fs2 => .structB (valids ++ [true]) fs2)
    | _ => some (.structB (valids ++ [false]) fs)
  | .listB slots eb, v =>
    -- the Go code calls b.Append(true) before switching on the value
    match v with
    | .arr xs =>
      (appendItems pt eb xs).map
        (fun eb2 => .listB (slots ++ [(true, builderLen eb)]) eb2)
    | .arrString xs =>
      (appendStrings pt eb xs).map
        (fun eb2 => .listB (slots ++ [(true, builderLen eb)]) eb2)
    | .arrFloat32 xs =>
      (appendFloat32s pt eb xs).map
        (fun eb2 => .listB (slots ++ [(true, builderLen eb)]) eb2)
    | v2 =>
      -- a single value is treated as the one element of the list
      (appendValue pt eb v2).map
        (fun eb2 => .listB (slots ++ [(true, builderLen eb)]) eb2)
  | .fixedListB size valids eb, v =>
    match v with
    | .arrFloat32 xs =>
      if (xs.length : Int) = size then
        match eb with
        | .float32B cs =>
          some (.fixedListB size (valids ++ [true]) (.float32B (cs ++ xs.map some)))
        | _ =>
          if xs.isEmpty then some (.fixedListB size (valids ++ [true]) eb)
          else none
      else some (.fixedListB size (valids ++ [false]) eb)
    | .arrFloat64 xs =>
      if (xs.length : Int) = size then
        match eb with
        | .float32B cs =>
          some (.fixedListB size (valids ++ [true]) (.float32B (cs ++ xs.map some)))
        | _ =>
          if xs.isEmpty then some (.fixedListB size (valids ++ [true]) eb)
          else none
      else some (.fixedListB size (valids ++ [false]) eb)
    | _ => some (.fixedListB size (valids ++ [false]) eb)
  termination_by b v => (gvSize v, sizeOf b)
  decreasing_by
    all_goals first
      | (apply Prod.Lex.left
         simp [gvSize, itemsSize, entriesSize]
         all_goals omega)
      | (apply Prod.Lex.right
         simp
         all_goals omega)

/-- The element loop of the list-builder `[]interface{}` case
(src/main.go:421-424): each item is appended into the shared element
builder in order. -/
def appendItems (pt : String → Option Int) : Builder → Items → Option Builder
  | eb, .nil => some eb
  | eb, .cons v rest =>
    match appendValue pt eb v with
    | some eb2 => appendItems pt eb2 rest
    | none => none
  termination_by eb xs => (itemsSize xs, sizeOf eb)
  decreasing_by
    all_goals apply Prod.Lex.left
    all_goals simp [gvSize, itemsSize, entriesSize]
    all_goals omega

/-- The element loop of the list-builder `[]string` case
(src/main.go:425-428). -/
def appendStrings (pt : String → Option Int) : Builder → List String → Option Builder
  | eb, [] => some eb
  | eb, s :: rest =>
    match appendValue pt eb (.str s) with
    | some eb2 => appendStrings pt eb2 rest
    | none => none
  termination_by eb xs => (xs.length, sizeOf eb)
  decreasing_by
    all_goals apply Prod.Lex.left
    all_goals simp [gvSize]
    all_goals omega

/-- The element loop of the list-builder `[]float32` case
(src/main.go:429-432). -/
def appendFloat32s (pt : String → Option Int) : Builder → List Rat → Option Builder
  | eb, [] => some eb
  | eb, q :: rest =>
    match appendValue pt eb (.float32 q) with
    | some eb2 => appendFloat32s pt eb2 rest
    | none => none
  termination_by eb xs => (xs.length, sizeOf eb)
  decreasing_by
    all_goals apply Prod.Lex.left
    all_goals simp [gvSize]
    all_goals omega

/-- The child loop of the struct-builder case (src/main.go:410-414): child
builder j receives the map's value for the j-th struct field's name (a Go
`nil` when the key is absent). -/
def appendStructFields (pt : String → Option Int) :
    BuilderFields → Entries → Option BuilderFields
  | .nil, _ => some .nil
  | .cons name fb rest, m =>
    match appendValue pt fb (lookupE m name) with
    | some fb2 =>
      (appendStructFields pt rest m).map (fun rest2 => .cons name fb2 rest2)
    | none => none
  termination_by fs m => (entriesSize m, sizeOf fs)
  decreasing_by
    all_goals first
      | (rcases lt_or_eq_of_le (gvSize_lookupE m name) with hlt | heq
         · exact Prod.Lex.left _ _ hlt
         · rw [heq]
           apply Prod.Lex.right
           simp
           all_goals omega)
      | (apply Prod.Lex.right
         simp
         all_goals omega)
end

/-- The per-field builder array of `createArrowRecord` (src/main.go:313-316),
keyed by the field's name so a document's value can be looked up. -/
def initBuilders : FieldList → List (String × Builder)
  | .nil => []
  | .cons name t _ rest => (name, newBuilder t) :: initBuilders rest

/-- One document's pass over all field builders (src/main.go:318-324):
each builder receives `doc[field.Name]` (a Go `nil` when absent). -/
def appendDoc (pt : String → Option Int) (doc : Entries) :
    List (String × Builder) → Option (List (String × Builder))
  | [] => some []
  | (name, b) :: rest =>
    match appendValue pt b (lookupE doc name) with
    | some b2 => (appendDoc pt doc rest).map (fun rest2 => (name, b2) :: rest2)
    | none => none

/-- The document loop of `createArrowRecord`: documents are appended in
batch order. -/
def appendDocs (pt : String → Option Int) :
    List (String × Builder) → List Entries → Option (List (String × Builder))
  | bs, [] => some bs
  | bs, doc :: rest =>
    match appendDoc pt doc bs with
    | some bs2 => appendDocs pt bs2 rest
    | none => none

/-- Embedding of `createArrowRecord` (src/main.go:312-332): one fresh
builder per schema field, every document appended into every field's
builder, and each final builder finalized into its column (the identity
here).  The resulting record holds the columns in schema order with row
count `len(data)`. -/
def createArrowRecord (pt : String → Option Int) (schema : FieldList)
    (data : List Entries) : Option (List (String × Builder)) :=
  appendDocs pt (initBuilders schema) data

/-- The two typed float slices the fixed-size-list branch of `appendValue`
stores (src/main.go:442-461): `[]float32` and `[]float64`. -/
def isFloatSlice : GoVal → Bool
  | .arrFloat32 _ | .arrFloat64 _ => true
  | _ => false

/-- The three slice types whose elements the list-builder branch of
`appendValue` iterates (src/main.go:420-432): `[]interface{}`, `[]string`
and `[]float32`.  Every other value falls to the single-element default. -/
def listIterated : GoVal → Bool
  | .arr _ | .arrString _ | .arrFloat32 _ => true
  | _ => false

theorem adjustTopField_eq_firstMatch (field : Field) (data : List Entries) :
    adjustTopField field data =
      (firstMatch data field.1).elim field (decideTopField field) := by
  induction data with
  | nil => simp [adjustTopField, firstMatch]
  | cons doc rest ih =>
    simp only [adjustTopField, firstMatch]
    cases h : lookupOkE doc field.1 with
    | none => simpa using ih
    | some v => simp [decideTopField]

theorem adjustField_nil (f : Field) : adjustField f .nil = f := by
  rw [adjustField.eq_def]

theorem adjustField_slice (f : Field) (v : GoVal) (hv : isGoSlice v = true) :
    adjustField f v = (f.1, .listT f.2.1, true) := by
  obtain ⟨name, t, nb⟩ := f
  cases v <;> simp [isGoSlice] at hv <;> cases t <;> simp [adjustField]

theorem listT_ne (t : ArrowType) : ArrowType.listT t ≠ t := by
  intro h
  have h2 := congrArg sizeOf h
  simp at h2

theorem decideTopField_slice (f : Field) (v : GoVal) (hv : isGoSlice v = true) :
    decideTopField f v = adjustField f v := by
  cases v <;> simp_all [isGoSlice, decideTopField]

theorem adjustTopField_of_firstMatch (name : String) (t : ArrowType) (nb : Bool)
    (data : List Entries) (v : GoVal) (h : firstMatch data name = some v) :
    adjustTopField (name, t, nb) data = decideTopField (name, t, nb) v := by
  have h1 := adjustTopField_eq_firstMatch (name, t, nb) data
  simp only [show ((name, t, nb) : Field).1 = name from rfl] at h1
  rw [h] at h1
  simpa using h1

theorem adjustTopField_of_firstMatch_none (name : String) (t : ArrowType) (nb : Bool)
    (data : List Entries) (h : firstMatch data name = none) :
    adjustTopField (name, t, nb) data = (name, t, nb) := by
  have h1 := adjustTopField_eq_firstMatch (name, t, nb) data
  simp only [show ((name, t, nb) : Field).1 = name from rfl] at h1
  rw [h] at h1
  simpa using h1

/-- C2 (counterexample): reconciling the already-reconciled schema
`{tags: String}` a second time against the same one-document batch
`[{tags: ["x"]}]` does not yield the same schema: the field, already
widened to `List(String)`, is widened again to `List(List(String))`. -/
theorem claim2_counterexample :
    adjustSchemaForLists
        (adjustSchemaForLists (.cons "tags" .stringT false .nil)
          [Entries.cons "tags" (.arrString ["x"]) .nil])
        [Entries.cons "tags" (.arrString ["x"]) .nil]
      ≠ adjustSchemaForLists (.cons "tags" .stringT false .nil)
          [Entries.cons "tags" (.arrString ["x"]) .nil] := by
  simp [adjustSchemaForLists, adjustTopField, lookupOkE, adjustField]

/-- C2 (amended): reconciliation is not idempotent in general.  Whenever the
first-match value for a field is list-shaped, reconciling the
already-reconciled field a second time against the same batch widens it
again, wrapping its reconciled type in a further `List`; in particular the
twice-reconciled field differs from the once-reconciled one. -/
theorem claim2_second_pass_widens (name : String) (t : ArrowType) (nullable : Bool)
    (data : List Entries) (v : GoVal)
    (hm : firstMatch data name = some v) (hv : isGoSlice v = true) :
    adjustTopField (adjustTopField (name, t, nullable) data) data
        = (name, .listT (adjustTopField (name, t, nullable) data).2.1, true) ∧
      adjustTopField (adjustTopField (name, t, nullable) data) data
        ≠ adjustTopField (name, t, nullable) data := by
  have hstep : adjustTopField (name, t, nullable) data = (name, .listT t, true) := by
    rw [adjustTopField_of_firstMatch name t nullable data v hm,
      decideTopField_slice _ _ hv, adjustField_slice _ _ hv]
  have hstep2 : adjustTopField (name, .listT t, true) data
      = (name, .listT (.listT t), true) := by
    rw [adjustTopField_of_firstMatch name (.listT t) true data v hm,
      decideTopField_slice _ _ hv, adjustField_slice _ _ hv]
  rw [hstep, hstep2]
  refine ⟨rfl, ?_⟩
  intro h
  have h2 := congrArg (fun f : Field => f.2.1) h
  simp only [ArrowType.listT.injEq] at h2
  exact listT_ne t h2

/-- C4 (confirmed): a field whose first available document value is
list-shaped is rewritten to `List(elementType)` with `elementType` equal to
the field's existing type (the five scalar cases of the inner switch each
return the existing scalar; the default case returns the existing type
unchanged), and the field becomes nullable. -/
theorem claim4_list_widening (name : String) (t : ArrowType) (nullable : Bool)
    (data : List Entries) (v : GoVal)
    (hm : firstMatch data name = some v) (hv : isGoSlice v = true) :
    adjustTopField (name, t, nullable) data = (name, .listT t, true) := by
  rw [adjustTopField_of_firstMatch name t nullable data v hm,
    decideTopField_slice _ _ hv, adjustField_slice _ _ hv]

/-- C5 (confirmed): the per-field scan is first-match-wins.  A document
without the field's key is skipped, and once a document contains the key
(`ok` is true) the decision depends only on that document: the documents
after it are irrelevant. -/
theorem claim5_first_match_wins (field : Field) (doc : Entries)
    (rest1 rest2 : List Entries) :
    (lookupOkE doc field.1 = none →
      adjustTopField field (doc :: rest1) = adjustTopField field rest1) ∧
    (∀ v, lookupOkE doc field.1 = some v →
      adjustTopField field (doc :: rest1) = adjustTopField field (doc :: rest2)) := by
  constructor
  · intro h
    simp only [adjustTopField, h]
  · intro v h
    simp only [adjustTopField, h]

/-- C10 (confirmed): when the first document whose map contains the field's
key holds an explicit nil for it, the one-shot decision is consumed: the
field keeps its descriptor and nullability unchanged, whatever the later
documents contain. -/
theorem claim10_explicit_null_consumes (name : String) (t : ArrowType) (nb : Bool)
    (data : List Entries) (h : firstMatch data name = some .nil) :
    adjustTopField (name, t, nb) data = (name, t, nb) := by
  rw [adjustTopField_of_firstMatch name t nb data .nil h]
  rw [show decideTopField (name, t, nb) .nil = adjustField (name, t, nb) .nil from by
    cases t <;> simp [decideTopField]]
  exact adjustField_nil _

theorem claim2_witness :
    firstMatch [Entries.cons "tags" (GoVal.arrString ["x"]) .nil] "tags"
        = some (GoVal.arrString ["x"]) ∧
    isGoSlice (GoVal.arrString ["x"]) = true ∧
    (adjustTopField
          (adjustTopField ("tags", .stringT, false)
            [Entries.cons "tags" (GoVal.arrString ["x"]) .nil])
          [Entries.cons "tags" (GoVal.arrString ["x"]) .nil]
        = ("tags",
            .listT (adjustTopField ("tags", .stringT, false)
              [Entries.cons "tags" (GoVal.arrString ["x"]) .nil]).2.1, true) ∧
      adjustTopField
          (adjustTopField ("tags", .stringT, false)
            [Entries.cons "tags" (GoVal.arrString ["x"]) .nil])
          [Entries.cons "tags" (GoVal.arrString ["x"]) .nil]
        ≠ adjustTopField ("tags", .stringT, false)
            [Entries.cons "tags" (GoVal.arrString ["x"]) .nil]) :=
  ⟨rfl, rfl, claim2_second_pass_widens "tags" .stringT false
    [Entries.cons "tags" (GoVal.arrString ["x"]) .nil] (GoVal.arrString ["x"]) rfl rfl⟩

theorem claim4_witness :
    firstMatch [Entries.cons "tags" (GoVal.arrString ["x", "y"]) .nil] "tags"
        = some (GoVal.arrString ["x", "y"]) ∧
    isGoSlice (GoVal.arrString ["x", "y"]) = true ∧
    adjustTopField ("tags", .stringT, false)
        [Entries.cons "tags" (GoVal.arrString ["x", "y"]) .nil]
      = ("tags", .listT .stringT, true) :=
  ⟨rfl, rfl, claim4_list_widening "tags" .stringT false
    [Entries.cons "tags" (GoVal.arrString ["x", "y"]) .nil]
    (GoVal.arrString ["x", "y"]) rfl rfl⟩

theorem claim5_witness :
    lookupOkE (Entries.cons "a" (GoVal.str "x") .nil) "a" = some (GoVal.str "x") ∧
    adjustTopField ("a", .stringT, false)
        [Entries.cons "a" (GoVal.str "x") .nil,
         Entries.cons "a" (GoVal.arrString ["y"]) .nil]
      = adjustTopField ("a", .stringT, false)
          [Entries.cons "a" (GoVal.str "x") .nil] :=
  ⟨rfl, (claim5_first_match_wins ("a", .stringT, false)
      (Entries.cons "a" (GoVal.str "x") .nil)
      [Entries.cons "a" (GoVal.arrString ["y"]) .nil] []).2
    (GoVal.str "x") rfl⟩

theorem claim10_witness :
    firstMatch [Entries.cons "x" GoVal.nil .nil,
        Entries.cons "x" (GoVal.arrString ["a"]) .nil] "x" = some GoVal.nil ∧
    adjustTopField ("x", .stringT, false)
        [Entries.cons "x" GoVal.nil .nil,
         Entries.cons "x" (GoVal.arrString ["a"]) .nil]
      = ("x", .stringT, false) :=
  ⟨rfl, claim10_explicit_null_consumes "x" .stringT false
    [Entries.cons "x" GoVal.nil .nil,
     Entries.cons "x" (GoVal.arrString ["a"]) .nil] rfl⟩

theorem wfFieldProps_map {fp p : Entries} (hp : lookupE fp "properties" = .map p)
    (h : wfFieldProps fp = true) : wfProps p = true := by
  rw [wfFieldProps.eq_def] at h
  split at h
  next q hq =>
    rw [hp] at hq
    injection hq with h2
    rw [h2]
    exact h
  next hq =>
    rw [hp] at hq
    exact absurd rfl (hq p)

theorem entriesSize_lookup_map {fp p : Entries} {k : String}
    (hp : lookupE fp k = .map p) : entriesSize p < entriesSize fp := by
  have h := gvSize_lookupE fp k
  rw [hp] at h
  simp [gvSize] at h
  omega

theorem parse_totality_aux : ∀ n : Nat,
    (∀ fieldProps, entriesSize fieldProps ≤ n → wfFieldProps fieldProps = true →
      ∀ s, (esTypeToArrowType s fieldProps).isSome = true) ∧
    (∀ props, entriesSize props ≤ n → wfProps props = true →
      (parseProperties props).isSome = true) := by
  intro n
  induction n using Nat.strong_induction_on with
  | _ n ih =>
    constructor
    · intro fp hn hwf s
      rw [esTypeToArrowType.eq_def]
      split
      all_goals try simp
      all_goals try (split <;> simp)
      all_goals
        next p hp =>
          have hwfp := wfFieldProps_map hp hwf
          have hlt := entriesSize_lookup_map hp
          exact (ih (entriesSize p) (lt_of_lt_of_le hlt hn)).2 p le_rfl hwfp
    · intro props hn hwf
      cases props with
      | nil => simp [parseProperties.eq_def]
      | cons k v rest =>
        rw [wfProps.eq_def] at hwf
        simp only [Bool.and_eq_true] at hwf
        obtain ⟨hv, hrest⟩ := hwf
        cases v <;> simp only at hv <;> try exact absurd hv Bool.false_ne_true
        case map fieldProps =>
          have hszfp : entriesSize fieldProps
              < entriesSize (Entries.cons k (.map fieldProps) rest) := by
            simp only [entriesSize, gvSize]
            omega
          have hszrest : entriesSize rest
              < entriesSize (Entries.cons k (.map fieldProps) rest) := by
            simp only [entriesSize, gvSize]
            omega
          have h1 := (ih (entriesSize fieldProps) (lt_of_lt_of_le hszfp hn)).1
            fieldProps le_rfl hv (fieldTypeOf fieldProps)
          have h2 := (ih (entriesSize rest) (lt_of_lt_of_le hszrest hn)).2
            rest le_rfl hrest
          obtain ⟨t, ht⟩ := Option.isSome_iff_exists.mp h1
          obtain ⟨fs, hfs⟩ := Option.isSome_iff_exists.mp h2
          rw [parseProperties.eq_def]
          show (match esTypeToArrowType (fieldTypeOf fieldProps) fieldProps,
              parseProperties rest with
            | some t, some fs => some (FieldList.cons k t false fs)
            | _, _ => none).isSome = true
          rw [ht, hfs]
          rfl

theorem parse_wf_aux : ∀ n : Nat,
    (∀ fieldProps s t, entriesSize fieldProps ≤ n →
      esTypeToArrowType s fieldProps = some t → wfType t = true) ∧
    (∀ props fs, entriesSize props ≤ n →
      parseProperties props = some fs → wfFields fs = true) := by
  intro n
  induction n using Nat.strong_induction_on with
  | _ n ih =>
    constructor
    · intro fp s t hn h
      rw [esTypeToArrowType.eq_def] at h
      split at h
      all_goals try (injection h with h2; subst h2; simp [wfType])
      all_goals try (split at h <;> (injection h with h2; subst h2; simp [wfType]))
      all_goals
        split at h
        next p hp =>
          obtain ⟨fs, hfs, hx⟩ := Option.map_eq_some'.mp h
          subst hx
          have hlt := entriesSize_lookup_map hp
          have := (ih (entriesSize p) (lt_of_lt_of_le hlt hn)).2 p fs le_rfl hfs
          simpa [wfType] using this
        next =>
          injection h with h2
          subst h2
          simp [wfType, wfFields]
    · intro props fs hn h
      cases props with
      | nil =>
        rw [parseProperties.eq_def] at h
        injection h with h2
        rw [← h2]
        simp [wfFields]
      | cons k v rest =>
        rw [parseProperties.eq_def] at h
        cases v
        case map fieldProps =>
          replace h : (match esTypeToArrowType (fieldTypeOf fieldProps) fieldProps,
              parseProperties rest with
            | some t, some fs2 => some (FieldList.cons k t false fs2)
            | _, _ => none) = some fs := h
          split at h
          next t2 fs2 ht2 hfs2 =>
            injection h with h2
            subst h2
            have hszfp : entriesSize fieldProps
                < entriesSize (Entries.cons k (.map fieldProps) rest) := by
              simp only [entriesSize, gvSize]
              omega
            have hszrest : entriesSize rest
                < entriesSize (Entries.cons k (.map fieldProps) rest) := by
              simp only [entriesSize, gvSize]
              omega
            have w1 := (ih (entriesSize fieldProps) (lt_of_lt_of_le hszfp hn)).1
              fieldProps (fieldTypeOf fieldProps) t2 le_rfl ht2
            have w2 := (ih (entriesSize rest) (lt_of_lt_of_le hszrest hn)).2
              rest fs2 le_rfl hfs2
            simp [wfFields, w1, w2]
          next => exact absurd h (by simp)
        all_goals simp at h

/-- C3 (confirmed): the type mapper is total and deterministic over all
string type names.  `text`/`keyword` map to String, `integer` to Int32,
`long` to Int64, `float` to Float32, `double` to Float64, `boolean` to
Boolean, `date` to the nanosecond-resolution timestamp, and every
unrecognized name maps to String; under a well-formed mapping object the
mapper never fails for any type name whatsoever. -/
theorem claim3_type_mapper (props : Entries) :
    esTypeToArrowType "text" props = some .stringT ∧
    esTypeToArrowType "keyword" props = some .stringT ∧
    esTypeToArrowType "integer" props = some .int32T ∧
    esTypeToArrowType "long" props = some .int64T ∧
    esTypeToArrowType "float" props = some .float32T ∧
    esTypeToArrowType "double" props = some .float64T ∧
    esTypeToArrowType "boolean" props = some .booleanT ∧
    esTypeToArrowType "date" props = some .timestampNsT ∧
    (∀ s : String,
      s ∉ (["text", "keyword", "integer", "long", "float", "double", "boolean",
        "date", "dense_vector", "nested", "object"] : List String) →
      esTypeToArrowType s props = some .stringT) ∧
    (wfFieldProps props = true →
      ∀ s : String, (esTypeToArrowType s props).isSome = true) := by
  refine ⟨?_, ?_, ?_, ?_, ?_, ?_, ?_, ?_, ?_, ?_⟩
  case _ => simp [esTypeToArrowType.eq_def]
  case _ => simp [esTypeToArrowType.eq_def]
  case _ => simp [esTypeToArrowType.eq_def]
  case _ => simp [esTypeToArrowType.eq_def]
  case _ => simp [esTypeToArrowType.eq_def]
  case _ => simp [esTypeToArrowType.eq_def]
  case _ => simp [esTypeToArrowType.eq_def]
  case _ => simp [esTypeToArrowType.eq_def]
  case _ =>
    intro s hs
    rw [esTypeToArrowType.eq_def]
    split <;> first | rfl | (exfalso; simp at hs)
  case _ =>
    intro hwf s
    exact (parse_totality_aux (entriesSize props)).1 props le_rfl hwf s

theorem claim3_witness :
    (("geo_point" : String) ∉ (["text", "keyword", "integer", "long", "float",
        "double", "boolean", "date", "dense_vector", "nested", "object"]
        : List String)) ∧
    esTypeToArrowType "geo_point" Entries.nil = some .stringT ∧
    wfFieldProps Entries.nil = true ∧
    (esTypeToArrowType "nested" Entries.nil).isSome = true :=
  ⟨by decide,
   (claim3_type_mapper Entries.nil).2.2.2.2.2.2.2.2.1 "geo_point" (by decide),
   by simp [wfFieldProps.eq_def, lookupE],
   (claim3_type_mapper Entries.nil).2.2.2.2.2.2.2.2.2
     (by simp [wfFieldProps.eq_def, lookupE]) "nested"⟩

theorem parseProperties_toList : ∀ (m : Entries),
    listParse (entriesToList m) = (parseProperties m).map fieldsToList
  | .nil => by
    simp [entriesToList, listParse, parseProperties.eq_def, fieldsToList]
  | .cons k v rest => by
    have ih := parseProperties_toList rest
    simp only [entriesToList, listParse]
    rw [parseProperties.eq_def]
    cases v
    case map fieldProps =>
      cases he : esTypeToArrowType (fieldTypeOf fieldProps) fieldProps <;>
        cases hp : parseProperties rest <;>
          simp [parseEntry, he, hp, fieldsToList, hp ▸ ih]
    all_goals simp [parseEntry, ih]

theorem listParse_perm {l1 l2 : List (String × GoVal)} (hperm : l1.Perm l2) :
    ∀ r1, listParse l1 = some r1 →
      ∃ r2, listParse l2 = some r2 ∧ r1.Perm r2 := by
  induction hperm with
  | nil =>
    intro r1 h1
    exact ⟨r1, h1, List.Perm.refl _⟩
  | cons x p ih =>
    rename_i tl1 tl2
    intro r1 h1
    simp only [listParse] at h1 ⊢
    revert h1
    cases hx : parseEntry x <;> cases hr : listParse tl1 <;> intro h1 <;>
      simp at h1
    subst h1
    obtain ⟨r2, hr2, hp2⟩ := ih _ hr
    rw [hr2]
    exact ⟨_, rfl, hp2.cons _⟩
  | swap x y l =>
    intro r1 h1
    simp only [listParse] at h1 ⊢
    revert h1
    cases hx : parseEntry x <;> cases hy : parseEntry y <;>
      cases hl : listParse l <;> intro h1 <;>
        simp at h1
    subst h1
    exact ⟨_, rfl, List.Perm.swap _ _ _⟩
  | trans p1 p2 ih1 ih2 =>
    intro r1 h1
    obtain ⟨rm, hm, pm⟩ := ih1 r1 h1
    obtain ⟨r2, h2, p2r⟩ := ih2 rm hm
    exact ⟨r2, h2, pm.trans p2r⟩

/-- C8 (counterexample): the pipeline's schema output is not a function of
the mapping as a map alone.  Two extensionally equal properties maps that
differ only in iteration order — as two runs over the same Go map may —
produce different schemas (the fields come out in a different order). -/
theorem claim8_counterexample :
    entriesMapEquiv
        (Entries.cons "a" (GoVal.map (Entries.cons "type" (GoVal.str "text") .nil))
          (Entries.cons "b" (GoVal.map (Entries.cons "type" (GoVal.str "integer") .nil))
            .nil))
        (Entries.cons "b" (GoVal.map (Entries.cons "type" (GoVal.str "integer") .nil))
          (Entries.cons "a" (GoVal.map (Entries.cons "type" (GoVal.str "text") .nil))
            .nil)) = true ∧
    parseProperties
        (Entries.cons "a" (GoVal.map (Entries.cons "type" (GoVal.str "text") .nil))
          (Entries.cons "b" (GoVal.map (Entries.cons "type" (GoVal.str "integer") .nil))
            .nil))
      ≠ parseProperties
          (Entries.cons "b" (GoVal.map (Entries.cons "type" (GoVal.str "integer") .nil))
            (Entries.cons "a" (GoVal.map (Entries.cons "type" (GoVal.str "text") .nil))
              .nil)) := by
  constructor
  · decide
  · simp [parseProperties.eq_def, esTypeToArrowType.eq_def, fieldTypeOf, lookupE]

/-- C8 (amended): with the Go map's iteration order made explicit, the
pipeline is a pure function of its inputs, and schema building is
deterministic up to that order: presenting the same properties in a
permuted iteration order yields the permuted field list. -/
theorem claim8_schema_perm (m1 m2 : Entries) (fs1 : FieldList)
    (hperm : (entriesToList m1).Perm (entriesToList m2))
    (h1 : parseProperties m1 = some fs1) :
    ∃ fs2, parseProperties m2 = some fs2 ∧
      (fieldsToList fs1).Perm (fieldsToList fs2) := by
  have e1 := parseProperties_toList m1
  have e2 := parseProperties_toList m2
  rw [h1] at e1
  simp only [Option.map_some'] at e1
  obtain ⟨r2, hr2, hp2⟩ := listParse_perm hperm _ e1
  rw [e2] at hr2
  obtain ⟨fs2, hfs2, hx⟩ := Option.map_eq_some'.mp hr2
  refine ⟨fs2, hfs2, ?_⟩
  rw [← hx] at hp2
  exact hp2

theorem claim8_witness :
    (entriesToList
        (Entries.cons "a" (GoVal.map (Entries.cons "type" (GoVal.str "text") .nil))
          (Entries.cons "b" (GoVal.map (Entries.cons "type" (GoVal.str "integer") .nil))
            .nil))).Perm
      (entriesToList
        (Entries.cons "b" (GoVal.map (Entries.cons "type" (GoVal.str "integer") .nil))
          (Entries.cons "a" (GoVal.map (Entries.cons "type" (GoVal.str "text") .nil))
            .nil))) ∧
    ∃ fs2,
      parseProperties
          (Entries.cons "b" (GoVal.map (Entries.cons "type" (GoVal.str "integer") .nil))
            (Entries.cons "a" (GoVal.map (Entries.cons "type" (GoVal.str "text") .nil))
              .nil)) = some fs2 ∧
      (fieldsToList (FieldList.cons "a" .stringT false
          (FieldList.cons "b" .int32T false .nil))).Perm (fieldsToList fs2) :=
  ⟨List.Perm.swap ("b", GoVal.map (Entries.cons "type" (GoVal.str "integer") .nil))
      ("a", GoVal.map (Entries.cons "type" (GoVal.str "text") .nil)) [],
   claim8_schema_perm
     (Entries.cons "a" (GoVal.map (Entries.cons "type" (GoVal.str "text") .nil))
       (Entries.cons "b" (GoVal.map (Entries.cons "type" (GoVal.str "integer") .nil))
         .nil))
     (Entries.cons "b" (GoVal.map (Entries.cons "type" (GoVal.str "integer") .nil))
       (Entries.cons "a" (GoVal.map (Entries.cons "type" (GoVal.str "text") .nil))
         .nil))
     (FieldList.cons "a" .stringT false (FieldList.cons "b" .int32T false .nil))
     (List.Perm.swap ("b", GoVal.map (Entries.cons "type" (GoVal.str "integer") .nil))
       ("a", GoVal.map (Entries.cons "type" (GoVal.str "text") .nil)) [])
     (by simp [parseProperties.eq_def, esTypeToArrowType.eq_def, fieldTypeOf, lookupE])⟩

mutual
theorem appendValue_total : ∀ (pt : String → Option Int) (b : Builder) (v : GoVal),
    wfBuilder b = true →
    ∃ b2, appendValue pt b v = some b2 ∧ wfBuilder b2 = true ∧
      builderLen b2 = builderLen b + 1
  | pt, .int32B cells, v, _ => by
    cases v <;> simp [appendValue, appendNull, wfBuilder, builderLen]
  | pt, .int64B cells, v, _ => by
    cases v <;> simp [appendValue, appendNull, wfBuilder, builderLen]
  | pt, .float32B cells, v, _ => by
    cases v <;> simp [appendValue, appendNull, wfBuilder, builderLen]
  | pt, .float64B cells, v, _ => by
    cases v <;> simp [appendValue, appendNull, wfBuilder, builderLen]
  | pt, .stringB cells, v, _ => by
    cases v <;> simp [appendValue, appendNull, wfBuilder, builderLen]
  | pt, .booleanB cells, v, _ => by
    cases v <;> simp [appendValue, appendNull, wfBuilder, builderLen]
  | pt, .timestampB cells, v, _ => by
    cases v <;> simp [appendValue, appendNull, wfBuilder, builderLen]
    case str s => cases pt s <;> simp [wfBuilder, builderLen]
  | pt, .structB valids fs, v, hwf => by
    replace hwf : wfBuilderFields fs = true := by simpa [wfBuilder] using hwf
    cases v
    case map m =>
      obtain ⟨fs2, h1, h2⟩ := appendStructFields_total pt fs m hwf
      simp [appendValue, h1, wfBuilder, builderLen, h2]
    all_goals simp [appendValue, appendNull, wfBuilder, builderLen, hwf]
  | pt, .listB slots eb, v, hwf => by
    replace hwf : wfBuilder eb = true := by simpa [wfBuilder] using hwf
    cases v
    case nil => simp [appendValue, appendNull, wfBuilder, builderLen, hwf]
    case arr xs =>
      obtain ⟨eb2, h1, h2, h3⟩ := appendItems_total pt eb xs hwf
      simp [appendValue, h1, wfBuilder, builderLen, h2]
    case arrString xs =>
      obtain ⟨eb2, h1, h2, h3⟩ := appendStrings_total pt eb xs hwf
      simp [appendValue, h1, wfBuilder, builderLen, h2]
    case arrFloat32 xs =>
      obtain ⟨eb2, h1, h2, h3⟩ := appendFloat32s_total pt eb xs hwf
      simp [appendValue, h1, wfBuilder, builderLen, h2]
    case str s =>
      obtain ⟨eb2, h1, h2, h3⟩ := appendValue_total pt eb (.str s) hwf
      simp [appendValue, h1, wfBuilder, builderLen, h2]
    case boolean b =>
      obtain ⟨eb2, h1, h2, h3⟩ := appendValue_total pt eb (.boolean b) hwf
      simp [appendValue, h1, wfBuilder, builderLen, h2]
    case int n =>
      obtain ⟨eb2, h1, h2, h3⟩ := appendValue_total pt eb (.int n) hwf
      simp [appendValue, h1, wfBuilder, builderLen, h2]
    case int32 n =>
      obtain ⟨eb2, h1, h2, h3⟩ := appendValue_total pt eb (.int32 n) hwf
      simp [appendValue, h1, wfBuilder, builderLen, h2]
    case int64 n =>
      obtain ⟨eb2, h1, h2, h3⟩ := appendValue_total pt eb (.int64 n) hwf
      simp [appendValue, h1, wfBuilder, builderLen, h2]
    case float32 q =>
      obtain ⟨eb2, h1, h2, h3⟩ := appendValue_total pt eb (.float32 q) hwf
      simp [appendValue, h1, wfBuilder, builderLen, h2]
    case float64 q =>
      obtain ⟨eb2, h1, h2, h3⟩ := appendValue_total pt eb (.float64 q) hwf
      simp [appendValue, h1, wfBuilder, builderLen, h2]
    case time ns =>
      obtain ⟨eb2, h1, h2, h3⟩ := appendValue_total pt eb (.time ns) hwf
      simp [appendValue, h1, wfBuilder, builderLen, h2]
    case map m =>
      obtain ⟨eb2, h1, h2, h3⟩ := appendValue_total pt eb (.map m) hwf
      simp [appendValue, h1, wfBuilder, builderLen, h2]
    case arrFloat64 xs =>
      obtain ⟨eb2, h1, h2, h3⟩ := appendValue_total pt eb (.arrFloat64 xs) hwf
      simp [appendValue, h1, wfBuilder, builderLen, h2]
    case arrInt xs =>
      obtain ⟨eb2, h1, h2, h3⟩ := appendValue_total pt eb (.arrInt xs) hwf
      simp [appendValue, h1, wfBuilder, builderLen, h2]
    case arrInt32 xs =>
      obtain ⟨eb2, h1, h2, h3⟩ := appendValue_total pt eb (.arrInt32 xs) hwf
      simp [appendValue, h1, wfBuilder, builderLen, h2]
    case arrInt64 xs =>
      obtain ⟨eb2, h1, h2, h3⟩ := appendValue_total pt eb (.arrInt64 xs) hwf
      simp [appendValue, h1, wfBuilder, builderLen, h2]
  | pt, .fixedListB size valids eb, v, hwf => by
    cases eb <;> simp only [wfBuilder] at hwf <;>
      try exact absurd hwf Bool.false_ne_true
    case float32B cs =>
      cases v
      case arrFloat32 xs =>
        simp only [appendValue]
        split <;> simp [wfBuilder, builderLen]
      case arrFloat64 xs =>
        simp only [appendValue]
        split <;> simp [wfBuilder, builderLen]
      all_goals simp [appendValue, appendNull, wfBuilder, builderLen]
  termination_by pt b v hwf => (gvSize v, sizeOf b)
  decreasing_by
    all_goals first
      | (apply Prod.Lex.left
         simp [gvSize, itemsSize, entriesSize]
         all_goals omega)
      | (apply Prod.Lex.right
         simp
         all_goals omega)

theorem appendItems_total : ∀ (pt : String → Option Int) (eb : Builder) (xs : Items),
    wfBuilder eb = true →
    ∃ eb2, appendItems pt eb xs = some eb2 ∧ wfBuilder eb2 = true ∧
      builderLen eb2 = builderLen eb + itemsCount xs
  | pt, eb, .nil, hwf =>
    ⟨eb, by simp [appendItems], hwf, by simp [itemsCount]⟩
  | pt, eb, .cons v rest, hwf => by
    obtain ⟨eb1, h1, h2, h3⟩ := appendValue_total pt eb v hwf
    obtain ⟨eb2, h4, h5, h6⟩ := appendItems_total pt eb1 rest h2
    refine ⟨eb2, ?_, h5, ?_⟩
    · simp [appendItems, h1, h4]
    · rw [h6, h3, itemsCount]
      omega
  termination_by pt eb xs hwf => (itemsSize xs, sizeOf eb)
  decreasing_by
    all_goals apply Prod.Lex.left
    all_goals simp [gvSize, itemsSize, entriesSize]
    all_goals omega

theorem appendStrings_total : ∀ (pt : String → Option Int) (eb : Builder)
    (xs : List String), wfBuilder eb = true →
    ∃ eb2, appendStrings pt eb xs = some eb2 ∧ wfBuilder eb2 = true ∧
      builderLen eb2 = builderLen eb + xs.length
  | pt, eb, [], hwf => ⟨eb, by simp [appendStrings], hwf, by simp⟩
  | pt, eb, s :: rest, hwf => by
    obtain ⟨eb1, h1, h2, h3⟩ := appendValue_total pt eb (.str s) hwf
    obtain ⟨eb2, h4, h5, h6⟩ := appendStrings_total pt eb1 rest h2
    refine ⟨eb2, ?_, h5, ?_⟩
    · simp [appendStrings, h1, h4]
    · rw [h6, h3]
      simp
      omega
  termination_by pt eb xs hwf => (xs.length, sizeOf eb)
  decreasing_by
    all_goals apply Prod.Lex.left
    all_goals simp [gvSize]
    all_goals omega

theorem appendFloat32s_total : ∀ (pt : String → Option Int) (eb : Builder)
    (xs : List Rat), wfBuilder eb = true →
    ∃ eb2, appendFloat32s pt eb xs = some eb2 ∧ wfBuilder eb2 = true ∧
      builderLen eb2 = builderLen eb + xs.length
  | pt, eb, [], hwf => ⟨eb, by simp [appendFloat32s], hwf, by simp⟩
  | pt, eb, q :: rest, hwf => by
    obtain ⟨eb1, h1, h2, h3⟩ := appendValue_total pt eb (.float32 q) hwf
    obtain ⟨eb2, h4, h5, h6⟩ := appendFloat32s_total pt eb1 rest h2
    refine ⟨eb2, ?_, h5, ?_⟩
    · simp [appendFloat32s, h1, h4]
    · rw [h6, h3]
      simp
      omega
  termination_by pt eb xs hwf => (xs.length, sizeOf eb)
  decreasing_by
    all_goals apply Prod.Lex.left
    all_goals simp [gvSize]
    all_goals omega

theorem appendStructFields_total : ∀ (pt : String → Option Int)
    (fs : BuilderFields) (m : Entries), wfBuilderFields fs = true →
    ∃ fs2, appendStructFields pt fs m = some fs2 ∧ wfBuilderFields fs2 = true
  | pt, .nil, m, _ =>
    ⟨.nil, by simp [appendStructFields], by simp [wfBuilderFields]⟩
  | pt, .cons name fb rest, m, hwf => by
    rw [wfBuilderFields] at hwf
    simp only [Bool.and_eq_true] at hwf
    obtain ⟨fb2, h1, h2, h3⟩ := appendValue_total pt fb (lookupE m name) hwf.1
    obtain ⟨fs2, h4, h5⟩ := appendStructFields_total pt rest m hwf.2
    exact ⟨.cons name fb2 fs2, by simp [appendStructFields, h1, h4],
      by simp [wfBuilderFields, h2, h5]⟩
  termination_by pt fs m hwf => (entriesSize m, sizeOf fs)
  decreasing_by
    all_goals first
      | (rcases lt_or_eq_of_le (gvSize_lookupE m name) with hlt | heq
         · exact Prod.Lex.left _ _ hlt
         · rw [heq]
           apply Prod.Lex.right
           simp
           all_goals omega)
      | (apply Prod.Lex.right
         simp
         all_goals omega)
end

theorem appendValue_listB_wrap (pt : String → Option Int)
    (slots : List (Bool × Nat)) (eb : Builder) (v : GoVal)
    (hv1 : v ≠ .nil) (hv2 : listIterated v = false) :
    appendValue pt (.listB slots eb) v
      = (appendValue pt eb v).map
          (fun eb2 => .listB (slots ++ [(true, builderLen eb)]) eb2) := by
  cases v
  case nil => exact absurd rfl hv1
  all_goals simp [listIterated] at hv2 <;> simp [appendValue]

mutual
theorem newBuilder_wf : ∀ (t : ArrowType), wfType t = true →
    wfBuilder (newBuilder t) = true
  | .stringT, _ => by simp [newBuilder, wfBuilder]
  | .int32T, _ => by simp [newBuilder, wfBuilder]
  | .int64T, _ => by simp [newBuilder, wfBuilder]
  | .float32T, _ => by simp [newBuilder, wfBuilder]
  | .float64T, _ => by simp [newBuilder, wfBuilder]
  | .booleanT, _ => by simp [newBuilder, wfBuilder]
  | .timestampNsT, _ => by simp [newBuilder, wfBuilder]
  | .fixedSizeListT n e, h => by
    cases e <;> simp [wfType] at h <;> simp [newBuilder, wfBuilder]
  | .listT e, h => by
    simp only [wfType] at h
    simp [newBuilder, wfBuilder, newBuilder_wf e h]
  | .structT fs, h => by
    simp only [wfType] at h
    simp [newBuilder, wfBuilder, newBuilderFields_wf fs h]

theorem newBuilderFields_wf : ∀ (fs : FieldList), wfFields fs = true →
    wfBuilderFields (newBuilderFields fs) = true
  | .nil, _ => by simp [newBuilderFields, wfBuilderFields]
  | .cons name t nb rest, h => by
    simp only [wfFields, Bool.and_eq_true] at h
    simp [newBuilderFields, wfBuilderFields, newBuilder_wf t h.1,
      newBuilderFields_wf rest h.2]
end

theorem builderLen_newBuilder (t : ArrowType) : builderLen (newBuilder t) = 0 := by
  cases t <;> simp [newBuilder, builderLen]

theorem initBuilders_inv : ∀ (schema : FieldList), wfFields schema = true →
    ∀ x ∈ initBuilders schema, wfBuilder x.2 = true ∧ builderLen x.2 = 0
  | .nil, _ => by simp [initBuilders]
  | .cons name t nb rest, h => by
    simp only [wfFields, Bool.and_eq_true] at h
    intro x hx
    simp only [initBuilders, List.mem_cons] at hx
    rcases hx with rfl | hx
    · exact ⟨newBuilder_wf t h.1, builderLen_newBuilder t⟩
    · exact initBuilders_inv rest h.2 x hx

theorem appendDoc_total (pt : String → Option Int) (doc : Entries) :
    ∀ (bs : List (String × Builder)) (k : Nat),
    (∀ x ∈ bs, wfBuilder x.2 = true ∧ builderLen x.2 = k) →
    ∃ bs2, appendDoc pt doc bs = some bs2 ∧
      ∀ x ∈ bs2, wfBuilder x.2 = true ∧ builderLen x.2 = k + 1
  | [], k, _ => ⟨[], by simp [appendDoc], by simp⟩
  | (name, b) :: rest, k, hinv => by
    obtain ⟨hwf, hlen⟩ := hinv (name, b) (by simp)
    obtain ⟨b2, h1, h2, h3⟩ := appendValue_total pt b (lookupE doc name) hwf
    obtain ⟨rest2, h4, h5⟩ := appendDoc_total pt doc rest k
      (fun x hx => hinv x (by simp [hx]))
    refine ⟨(name, b2) :: rest2, ?_, ?_⟩
    · simp [appendDoc, h1, h4]
    · intro x hx
      rcases List.mem_cons.mp hx with rfl | hx
      · exact ⟨h2, by rw [h3, hlen]⟩
      · exact h5 x hx

theorem appendDocs_total (pt : String → Option Int) :
    ∀ (docs : List Entries) (bs : List (String × Builder)) (k : Nat),
    (∀ x ∈ bs, wfBuilder x.2 = true ∧ builderLen x.2 = k) →
    ∃ bs2, appendDocs pt bs docs = some bs2 ∧
      ∀ x ∈ bs2, wfBuilder x.2 = true ∧ builderLen x.2 = k + docs.length
  | [], bs, k, hinv => ⟨bs, by simp [appendDocs], by simpa using hinv⟩
  | doc :: rest, bs, k, hinv => by
    obtain ⟨bs1, h1, h2⟩ := appendDoc_total pt doc bs k hinv
    obtain ⟨bs2, h3, h4⟩ := appendDocs_total pt rest bs1 (k + 1) h2
    refine ⟨bs2, ?_, ?_⟩
    · simp [appendDocs, h1, h3]
    · intro x hx
      obtain ⟨hw, hl⟩ := h4 x hx
      refine ⟨hw, ?_⟩
      rw [hl]
      simp
      omega

theorem createArrowRecord_total (pt : String → Option Int) (schema : FieldList)
    (docs : List Entries) (h : wfFields schema = true) :
    ∃ cols, createArrowRecord pt schema docs = some cols ∧
      ∀ x ∈ cols, wfBuilder x.2 = true ∧ builderLen x.2 = docs.length := by
  obtain ⟨cols, h1, h2⟩ := appendDocs_total pt docs (initBuilders schema) 0
    (initBuilders_inv schema h)
  exact ⟨cols, h1, fun x hx => by simpa using h2 x hx⟩

mutual
theorem adjustField_wf : ∀ (name : String) (t : ArrowType) (nb : Bool) (v : GoVal),
    wfType t = true → wfType (adjustField (name, t, nb) v).2.1 = true
  | name, t, nb, v, h => by
    cases v
    case nil =>
      rw [adjustField_nil]
      exact h
    case map m =>
      cases t <;> simp only [adjustField] <;> try exact h
      case structT fs =>
        have h2 : wfFields fs = true := by simpa [wfType] using h
        simpa [wfType] using adjustFields_wf fs m h2
    case arr xs =>
      rw [adjustField_slice (name, t, nb) (.arr xs) rfl]
      simpa [wfType] using h
    case arrString xs =>
      rw [adjustField_slice (name, t, nb) (.arrString xs) rfl]
      simpa [wfType] using h
    case arrFloat32 xs =>
      rw [adjustField_slice (name, t, nb) (.arrFloat32 xs) rfl]
      simpa [wfType] using h
    case arrFloat64 xs =>
      rw [adjustField_slice (name, t, nb) (.arrFloat64 xs) rfl]
      simpa [wfType] using h
    case arrInt xs =>
      rw [adjustField_slice (name, t, nb) (.arrInt xs) rfl]
      simpa [wfType] using h
    case arrInt32 xs =>
      rw [adjustField_slice (name, t, nb) (.arrInt32 xs) rfl]
      simpa [wfType] using h
    case arrInt64 xs =>
      rw [adjustField_slice (name, t, nb) (.arrInt64 xs) rfl]
      simpa [wfType] using h
    all_goals
      simp only [adjustField]
      exact h
  termination_by name t nb v h => (sizeOf t, 0)
  decreasing_by
    all_goals apply Prod.Lex.left
    all_goals subst_vars
    all_goals simp

theorem adjustFields_wf : ∀ (fs : FieldList) (m : Entries), wfFields fs = true →
    wfFields (adjustFields fs m) = true
  | .nil, m, _ => by simp [adjustFields, wfFields]
  | .cons name t nb rest, m, h => by
    simp only [wfFields, Bool.and_eq_true] at h
    simp only [adjustFields]
    simp [wfFields, adjustField_wf name t nb (lookupE m name) h.1,
      adjustFields_wf rest m h.2]
  termination_by fs m h => (sizeOf fs, 1)
  decreasing_by
    all_goals apply Prod.Lex.left
    all_goals simp
    all_goals omega
end

theorem decideTopField_wf (f : Field) (v : GoVal) (h : wfType f.2.1 = true) :
    wfType (decideTopField f v).2.1 = true := by
  obtain ⟨name, t, nb⟩ := f
  cases v
  case map m =>
    cases t <;> simp only [decideTopField] <;> try exact adjustField_wf _ _ _ _ h
    case structT fs =>
      simp only [wfType] at h ⊢
      exact adjustFields_wf fs m h
  all_goals
    simp only [decideTopField]
    exact adjustField_wf _ _ _ _ h

theorem adjustTopField_wf (f : Field) (data : List Entries)
    (h : wfType f.2.1 = true) : wfType (adjustTopField f data).2.1 = true := by
  rw [adjustTopField_eq_firstMatch]
  cases firstMatch data f.1 with
  | none => simpa using h
  | some v => simpa using decideTopField_wf f v h

theorem adjustSchemaForLists_wf : ∀ (schema : FieldList) (data : List Entries),
    wfFields schema = true → wfFields (adjustSchemaForLists schema data) = true
  | .nil, data, _ => by simp [adjustSchemaForLists, wfFields]
  | .cons name t nb rest, data, h => by
    simp only [wfFields, Bool.and_eq_true] at h
    simp only [adjustSchemaForLists]
    simp [wfFields, adjustTopField_wf (name, t, nb) data h.1,
      adjustSchemaForLists_wf rest data h.2]

/-- C1 (confirmed): materialization never fails and keeps rows aligned.
For any schema obtained from the pipeline (parsed from a mapping, then
reconciled against any sample batch), appending any batch of documents —
whatever the shape of each value, including absent, null and mismatched
shapes, which all degrade to null cells — succeeds, and every top-level
column ends with row count equal to the number of documents. -/
theorem claim1_append_never_fails (pt : String → Option Int) (props : Entries)
    (baseline : FieldList) (sample batch : List Entries)
    (hparse : parseProperties props = some baseline) :
    ∃ cols,
      createArrowRecord pt (adjustSchemaForLists baseline sample) batch = some cols ∧
      ∀ x ∈ cols, builderLen x.2 = batch.length := by
  have hwf0 : wfFields baseline = true :=
    (parse_wf_aux (entriesSize props)).2 props baseline le_rfl hparse
  have hwf := adjustSchemaForLists_wf baseline sample hwf0
  obtain ⟨cols, h1, h2⟩ := createArrowRecord_total pt _ batch hwf
  exact ⟨cols, h1, fun x hx => (h2 x hx).2⟩

theorem claim1_witness :
    parseProperties
        (Entries.cons "name" (GoVal.map (Entries.cons "type" (GoVal.str "text") .nil))
          .nil)
      = some (FieldList.cons "name" .stringT false .nil) ∧
    ∃ cols,
      createArrowRecord (fun _ => none)
          (adjustSchemaForLists (FieldList.cons "name" .stringT false .nil) [])
          [Entries.cons "name" (GoVal.str "A") .nil,
           Entries.cons "name" GoVal.nil .nil,
           Entries.cons "name" (GoVal.int32 7) .nil] = some cols ∧
      ∀ x ∈ cols, builderLen x.2 = 3 :=
  ⟨by simp [parseProperties.eq_def, esTypeToArrowType.eq_def, fieldTypeOf, lookupE],
   claim1_append_never_fails (fun _ => none)
     (Entries.cons "name" (GoVal.map (Entries.cons "type" (GoVal.str "text") .nil))
       .nil)
     (FieldList.cons "name" .stringT false .nil) []
     [Entries.cons "name" (GoVal.str "A") .nil,
      Entries.cons "name" GoVal.nil .nil,
      Entries.cons "name" (GoVal.int32 7) .nil]
     (by simp [parseProperties.eq_def, esTypeToArrowType.eq_def, fieldTypeOf, lookupE])⟩

/-- C9 (confirmed): the Int32 column accepts a Go `int32` as-is, a Go `int`
narrowed to 32 bits, and a Go `float64` truncated to int32; but a Go
`int64` and a Go `float32` both append null — no narrowing from int64 (or
widening from float32) is attempted, even though the wider float64 is. -/
theorem claim9_int32_append (pt : String → Option Int) (cells : List (Option Int))
    (n : Int) (q : Rat) :
    appendValue pt (.int32B cells) (.int32 n) = some (.int32B (cells ++ [some n])) ∧
    appendValue pt (.int32B cells) (.int n)
      = some (.int32B (cells ++ [some (goInt32 n)])) ∧
    appendValue pt (.int32B cells) (.float64 q)
      = some (.int32B (cells ++ [some (goInt32 (ratTrunc q))])) ∧
    appendValue pt (.int32B cells) (.int64 n) = some (.int32B (cells ++ [none])) ∧
    appendValue pt (.int32B cells) (.float32 q)
      = some (.int32B (cells ++ [none])) := by
  refine ⟨?_, ?_, ?_, ?_, ?_⟩ <;> simp [appendValue]

/-- C7 (confirmed): the fixed-size-vector column of declared size `size`
stores a vector row exactly for a `[]float32` or `[]float64` source value
of length `size`; on a float slice of any other length, or on any value
that is not a float slice (including Go nil), it appends null for the whole
vector and the element builder is left untouched — no partial elements. -/
theorem claim7_fixed_vector (pt : String → Option Int) (size : Int)
    (valids : List Bool) (cs : List (Option Rat)) (v : GoVal) :
    (∀ xs, v = .arrFloat32 xs →
      ((xs.length : Int) = size →
        appendValue pt (.fixedListB size valids (.float32B cs)) v
          = some (.fixedListB size (valids ++ [true])
              (.float32B (cs ++ xs.map some)))) ∧
      ((xs.length : Int) ≠ size →
        appendValue pt (.fixedListB size valids (.float32B cs)) v
          = some (.fixedListB size (valids ++ [false]) (.float32B cs)))) ∧
    (∀ xs, v = .arrFloat64 xs →
      ((xs.length : Int) = size →
        appendValue pt (.fixedListB size valids (.float32B cs)) v
          = some (.fixedListB size (valids ++ [true])
              (.float32B (cs ++ xs.map some)))) ∧
      ((xs.length : Int) ≠ size →
        appendValue pt (.fixedListB size valids (.float32B cs)) v
          = some (.fixedListB size (valids ++ [false]) (.float32B cs)))) ∧
    (isFloatSlice v = false →
      appendValue pt (.fixedListB size valids (.float32B cs)) v
        = some (.fixedListB size (valids ++ [false]) (.float32B cs))) := by
  refine ⟨?_, ?_, ?_⟩
  · rintro xs rfl
    constructor <;> intro hlen <;> simp [appendValue, hlen]
  · rintro xs rfl
    constructor <;> intro hlen <;> simp [appendValue, hlen]
  · intro hv
    cases v <;> simp [isFloatSlice] at hv <;>
      simp [appendValue, appendNull]

theorem claim7_witness :
    ((([1, 2, 3] : List Rat).length : Int) = 3 ∧
      appendValue (fun _ => none) (.fixedListB 3 [] (.float32B []))
          (.arrFloat32 [1, 2, 3])
        = some (.fixedListB 3 [true] (.float32B [some 1, some 2, some 3]))) ∧
    ((([1, 2] : List Rat).length : Int) ≠ 3 ∧
      appendValue (fun _ => none) (.fixedListB 3 [] (.float32B []))
          (.arrFloat64 [1, 2])
        = some (.fixedListB 3 [false] (.float32B []))) :=
  ⟨⟨by decide,
    ((claim7_fixed_vector (fun _ => none) 3 [] [] (.arrFloat32 [1, 2, 3])).1
      [1, 2, 3] rfl).1 (by decide)⟩,
   ⟨by decide,
    ((claim7_fixed_vector (fun _ => none) 3 [] [] (.arrFloat64 [1, 2])).2.1
      [1, 2] rfl).2 (by decide)⟩⟩

/-- C6 (counterexample): a `[]float64` value is list-shaped, but the list
builder does not iterate its elements: appending `[]float64{1, 2}` into a
`List(Float64)` column marks the slot present and appends a single null
element into the element builder, instead of the two elements the claim
requires. -/
theorem claim6_counterexample :
    appendValue (fun _ => none) (.listB [] (.float64B [])) (GoVal.arrFloat64 [1, 2])
        = some (.listB [(true, 0)] (.float64B [none])) ∧
    appendValue (fun _ => none) (.listB [] (.float64B [])) (GoVal.arrFloat64 [1, 2])
        ≠ some (.listB [(true, 0)] (.float64B [some 1, some 2])) := by
  constructor
  · simp [appendValue, builderLen]
  · simp [appendValue, builderLen]

/-- C6 (amended): for every List column and non-null source value, append
marks the list slot present at the current element offset.  The elements
are iterated and appended one by one only for the three source types
`[]interface{}`, `[]string` and `[]float32`; every other value — including
the other slice types `[]float64`, `[]int`, `[]int32`, `[]int64` — is
passed once, as a whole, to the shared element accumulator, appending
exactly one element (the single-value-becomes-one-element-list fallback). -/
theorem claim6_list_append (pt : String → Option Int) (slots : List (Bool × Nat))
    (eb : Builder) (v : GoVal) (hwf : wfBuilder eb = true) (hv : v ≠ .nil) :
    ∃ eb2,
      appendValue pt (.listB slots eb) v
        = some (.listB (slots ++ [(true, builderLen eb)]) eb2) ∧
      (∀ xs, v = .arr xs → builderLen eb2 = builderLen eb + itemsCount xs) ∧
      (∀ xs, v = .arrString xs → builderLen eb2 = builderLen eb + xs.length) ∧
      (∀ xs, v = .arrFloat32 xs → builderLen eb2 = builderLen eb + xs.length) ∧
      (listIterated v = false →
        appendValue pt eb v = some eb2 ∧ builderLen eb2 = builderLen eb + 1) := by
  by_cases hit : listIterated v = true
  · cases v <;> simp [listIterated] at hit
    next xs =>
      obtain ⟨eb2, h1, h2, h3⟩ := appendItems_total pt eb xs hwf
      refine ⟨eb2, by simp [appendValue, h1], fun xs2 heq => ?_,
        fun xs2 heq => ?_, fun xs2 heq => ?_, fun hfalse => ?_⟩
      · injection heq with h
        subst h
        exact h3
      · simp at heq
      · simp at heq
      · simp [listIterated] at hfalse
    next xs =>
      obtain ⟨eb2, h1, h2, h3⟩ := appendStrings_total pt eb xs hwf
      refine ⟨eb2, by simp [appendValue, h1], fun xs2 heq => ?_,
        fun xs2 heq => ?_, fun xs2 heq => ?_, fun hfalse => ?_⟩
      · simp at heq
      · injection heq with h
        subst h
        exact h3
      · simp at heq
      · simp [listIterated] at hfalse
    next xs =>
      obtain ⟨eb2, h1, h2, h3⟩ := appendFloat32s_total pt eb xs hwf
      refine ⟨eb2, by simp [appendValue, h1], fun xs2 heq => ?_,
        fun xs2 heq => ?_, fun xs2 heq => ?_, fun hfalse => ?_⟩
      · simp at heq
      · simp at heq
      · injection heq with h
        subst h
        exact h3
      · simp [listIterated] at hfalse
  · replace hit : listIterated v = false := by simpa using hit
    have hw := appendValue_listB_wrap pt slots eb v hv hit
    obtain ⟨eb2, h1, h2, h3⟩ := appendValue_total pt eb v hwf
    refine ⟨eb2, by simp [hw, h1], fun xs heq => ?_, fun xs heq => ?_,
      fun xs heq => ?_, fun _ => ⟨h1, h3⟩⟩
    · subst heq
      simp [listIterated] at hit
    · subst heq
      simp [listIterated] at hit
    · subst heq
      simp [listIterated] at hit

theorem claim6_witness :
    wfBuilder (.stringB []) = true ∧ GoVal.arrString ["x", "y"] ≠ GoVal.nil ∧
    ∃ eb2,
      appendValue (fun _ => none) (.listB [] (.stringB []))
          (GoVal.arrString ["x", "y"])
        = some (.listB [(true, 0)] eb2) ∧
      (∀ xs, GoVal.arrString ["x", "y"] = .arr xs →
        builderLen eb2 = builderLen (Builder.stringB []) + itemsCount xs) ∧
      (∀ xs, GoVal.arrString ["x", "y"] = .arrString xs →
        builderLen eb2 = builderLen (Builder.stringB []) + xs.length) ∧
      (∀ xs, GoVal.arrString ["x", "y"] = .arrFloat32 xs →
        builderLen eb2 = builderLen (Builder.stringB []) + xs.length) ∧
      (listIterated (GoVal.arrString ["x", "y"]) = false →
        appendValue (fun _ => none) (.stringB []) (GoVal.arrString ["x", "y"])
            = some eb2 ∧
          builderLen eb2 = builderLen (Builder.stringB []) + 1) :=
  ⟨rfl, by simp,
   claim6_list_append (fun _ => none) [] (.stringB []) (GoVal.arrString ["x", "y"])
     rfl (by simp)⟩

end EsSchema
